import Mathlib

/-!
Verification of the geometric core of `bpy-helper` (scene bounding volumes,
spherical random sampling, look-at camera transform) against its
natural-language specification.

The scene module (`src/bpy_helper/scene.py`) is embedded over `ℚ`
(exact model of the finite IEEE doubles it manipulates; `min`/`max`/
arithmetic on finite doubles are order-faithful).  The sampler
(`src/bpy_helper/random.py`) and the camera module
(`src/bpy_helper/camera.py`) involve `π`, `acos`, `sin`, `cos`, square
roots and division, so they are embedded over `ℝ`, with a dedicated
NaN-tracking scalar type for the camera module where the source can
divide zero by zero.
-/

/-! ## Scene module: data model

`mathutils.Vector` 3-vectors are triples; `Object.matrix_world` acts on a
3-vector as an affine map (linear 3×3 block plus translation), which is how
Blender applies a 4×4 `matrix_world` to a length-3 vector.  A scene object
carries its `bound_box` corner list (used by `scene_bbox`) and its mesh
`vertices` (used by `scene_sphere`). -/

/-- A 3-vector with rational (exact-real) components, modelling a
`mathutils.Vector` of finite doubles. -/
structure Q3 where
  x : ℚ
  y : ℚ
  z : ℚ
deriving DecidableEq

/-- Componentwise subtraction of `mathutils.Vector`s. -/
def Q3.sub (a b : Q3) : Q3 := ⟨a.x - b.x, a.y - b.y, a.z - b.z⟩

/-- Squared Euclidean length of a vector.  `mathutils.Vector` rich
comparisons `<`, `>` order vectors by (squared) length, so this is the key
Python's `max` uses on vectors, and `v.length` is its square root. -/
def sqLen (p : Q3) : ℚ := p.x ^ 2 + p.y ^ 2 + p.z ^ 2

/-- An affine transform: the action of an object's `matrix_world` on a
3-vector (rows `r0 r1 r2` of the linear block, translation `t`). -/
structure AffineM where
  r0 : Q3
  r1 : Q3
  r2 : Q3
  t : Q3
deriving DecidableEq

/-- Application `matrix_world @ coord` for a 3-vector `coord`. -/
def AffineM.apply (m : AffineM) (p : Q3) : Q3 :=
  ⟨m.r0.x * p.x + m.r0.y * p.y + m.r0.z * p.z + m.t.x,
   m.r1.x * p.x + m.r1.y * p.y + m.r1.z * p.z + m.t.y,
   m.r2.x * p.x + m.r2.y * p.y + m.r2.z * p.z + m.t.z⟩

/-- The identity `matrix_world`. -/
def AffineM.id : AffineM :=
  ⟨⟨1, 0, 0⟩, ⟨0, 1, 0⟩, ⟨0, 0, 1⟩, ⟨0, 0, 0⟩⟩

/-- A mesh object of the scene as `scene_bbox` / `scene_sphere` see it:
its world matrix, its `bound_box` corners and its mesh `vertices`. -/
structure SceneObj where
  matrixWorld : AffineM
  boundBox : List Q3
  vertices : List Q3
deriving DecidableEq

/-- Errors the scene functions can raise: the explicit
`RuntimeError("no objects in scene ...")` of both bounding-volume
functions, and the `AttributeError` raised by `None.length` at the end of
`scene_sphere` when the scene has objects but no vertices. -/
inductive SceneErr where
  | runtimeNoObjects : SceneErr
  | attributeErrorOnNone : SceneErr
deriving DecidableEq

/-- The `bound_box` corners of one object in world space: each corner is
multiplied by `matrix_world` unless `ignore_matrix` is set. -/
def worldCorners (ignoreMatrix : Bool) (o : SceneObj) : List Q3 :=
  o.boundBox.map fun c => if ignoreMatrix then c else o.matrixWorld.apply c

/-- The mesh `vertices` of one object in world space: each vertex is
multiplied by `matrix_world` unless `ignore_matrix` is set. -/
def worldVerts (ignoreMatrix : Bool) (o : SceneObj) : List Q3 :=
  o.vertices.map fun v => if ignoreMatrix then v else o.matrixWorld.apply v

/-- Accumulator for `bbox_min`: starts at `(inf, inf, inf)`, modelled by
`⊤` in `WithTop ℚ`. -/
structure TopQ3 where
  x : WithTop ℚ
  y : WithTop ℚ
  z : WithTop ℚ
deriving DecidableEq

/-- Accumulator for `bbox_max`: starts at `(-inf, -inf, -inf)`, modelled by
`⊥` in `WithBot ℚ`. -/
structure BotQ3 where
  x : WithBot ℚ
  y : WithBot ℚ
  z : WithBot ℚ
deriving DecidableEq

/-- One `bbox_min = tuple(min(x, y) ...)` update of `scene_bbox`. -/
def bboxMinStep (acc : TopQ3) (p : Q3) : TopQ3 :=
  ⟨min acc.x ↑p.x, min acc.y ↑p.y, min acc.z ↑p.z⟩

/-- One `bbox_max = tuple(max(x, y) ...)` update of `scene_bbox`. -/
def bboxMaxStep (acc : BotQ3) (p : Q3) : BotQ3 :=
  ⟨max acc.x ↑p.x, max acc.y ↑p.y, max acc.z ↑p.z⟩

/-- Embedding of `scene_bbox`: folds componentwise `min`/`max` over every world-space
`bound_box` corner of every object, starting from `(inf,)*3` and
`(-inf,)*3`; raises `RuntimeError` when the loop saw no object (`found`
stays false exactly when the object list is empty).  The single Python
pass updating both accumulators equals the two independent folds here. -/
def scene_bbox (objs : List SceneObj) (ignoreMatrix : Bool) :
    Except SceneErr (TopQ3 × BotQ3) :=
  if objs.isEmpty then .error .runtimeNoObjects
  else
    let pts := objs.flatMap (worldCorners ignoreMatrix)
    .ok (pts.foldl bboxMinStep ⟨⊤, ⊤, ⊤⟩, pts.foldl bboxMaxStep ⟨⊥, ⊥, ⊥⟩)

/-- Embedding of `get_center(l) = (max(l) + min(l)) / 2 if l else 0.0`, with Python's
`max`/`min` over a non-empty list written as left folds from its head. -/
def get_center (l : List ℚ) : ℚ :=
  match l with
  | [] => 0
  | a :: rest => (rest.foldl max a + rest.foldl min a) / 2

/-- Python's `max` over a non-empty sequence of `mathutils.Vector`s:
`mathutils` orders vectors by squared length and `max` replaces the
current maximum only on a strictly greater candidate (first wins ties). -/
def maxBySq (a : Q3) (l : List Q3) : Q3 :=
  l.foldl (fun acc v => if sqLen acc < sqLen v then v else acc) a

/-- Embedding of `scene_sphere`: gathers every world-space mesh vertex; raises
`RuntimeError` when there is no object; otherwise the center is
`get_center` of each coordinate list (`None` when the vertex list is
empty, in which case the radius is also `None` and the final
`b_sphere_radius.length` raises `AttributeError`); the radius vector is
Python's `max` over `point - center` (ordered by length, see `maxBySq`)
and the function returns its `.length`.  We return the squared length
(`sqLen`) of that radius vector to stay in `ℚ`; the value the code
returns is its square root, recovered by `Real.sqrt` in the theorems. -/
def scene_sphere (objs : List SceneObj) (ignoreMatrix : Bool) :
    Except SceneErr (Q3 × ℚ) :=
  if objs.isEmpty then .error .runtimeNoObjects
  else
    let pts := objs.flatMap (worldVerts ignoreMatrix)
    match pts with
    | [] => .error .attributeErrorOnNone
    | p :: rest =>
      let c : Q3 := ⟨get_center (pts.map Q3.x), get_center (pts.map Q3.y),
                     get_center (pts.map Q3.z)⟩
      .ok (c, sqLen (maxBySq (p.sub c) (rest.map fun q => q.sub c)))

/-! ## Sampler module: `gen_random_pts_around_origin`

The Python function draws from the global `random.random()` generator.  We
model generator states by the streams of `random.random()` outputs they
produce: `seedFn s` is the stream after `random.seed(s)` (a function of
the seed alone, for the fixed generator algorithm), `ambient` the stream
from whatever global state the call starts in when `seed is None`.  The
rejection loop for the polar angle can run forever, so the sampler
returns `Option`: `none` models divergence. -/

/-- A 3-vector with real components: sampler output points, camera
positions and directions. -/
structure V3 where
  x : ℝ
  y : ℝ
  z : ℝ

/-- Euclidean norm of a 3-vector (distance to the origin). -/
noncomputable def vnorm (p : V3) : ℝ := Real.sqrt (p.x ^ 2 + p.y ^ 2 + p.z ^ 2)

/-- One `math.acos(2.0 * random.random() - 1.0)` draw, at position `i` of
the stream `u` of `random.random()` outputs. -/
noncomputable def thetaDraw (u : ℕ → ℝ) (i : ℕ) : ℝ := Real.arccos (2 * u i - 1)

open Classical in
/-- The rejection loop `while theta < min_rad or theta > max_rad` of the
sampler: starting at stream position `k`, the first draw `j` with
`acos(2 * u (k + j) - 1)` inside `[tmin, tmax]` is accepted, and the next
unread stream position is returned with it; when no draw is ever accepted
the Python loop runs forever, modelled as `none`. -/
noncomputable def nextTheta (u : ℕ → ℝ) (k : ℕ) (tmin tmax : ℝ) : Option (ℝ × ℕ) :=
  if h : ∃ j, tmin ≤ thetaDraw u (k + j) ∧ thetaDraw u (k + j) ≤ tmax then
    some (thetaDraw u (k + Nat.find h), k + Nat.find h + 1)
  else none

/-- The swap `pt = [pt[0], pt[2], pt[1]]` applied when `z_up` is
false. -/
def swapYZ (p : V3) : V3 := ⟨p.x, p.z, p.y⟩

/-- The `for i in range(N)` loop of `gen_random_pts_around_origin`,
recursing over the remaining count with `k` the current position in the
`random.random()` stream `u`: draw `phi`, run the theta rejection loop,
draw `dist`, convert to Cartesian with Z as the polar axis, swap Y and Z
when `z_up` is false, and append in generation order.  A diverging
rejection loop makes the whole call `none`. -/
noncomputable def genPts (u : ℕ → ℝ) (tmin tmax minR maxR : ℝ) (zUp : Bool) :
    ℕ → ℕ → Option (List V3)
  | 0, _ => some []
  | n + 1, k =>
    let phi := 2 * Real.pi * u k
    match nextTheta u (k + 1) tmin tmax with
    | none => none
    | some (theta, k2) =>
      let dist := minR + u k2 * (maxR - minR)
      let p : V3 := ⟨dist * Real.sin theta * Real.cos phi,
                     dist * Real.sin theta * Real.sin phi, dist * Real.cos theta⟩
      let p2 := if zUp then p else swapYZ p
      (genPts u tmin tmax minR maxR zUp n (k2 + 1)).map fun rest => p2 :: rest

/-- Embedding of `gen_random_pts_around_origin(seed, N, min_dist_to_origin,
max_dist_to_origin, min_theta_in_degree, max_theta_in_degree, z_up)`:
seeds the generator when `seed is not None` (selecting the stream
`seedFn seed` instead of the ambient one), converts the degree bounds by
`* pi / 180` (the code recomputes the same two values every loop
iteration), and runs the generation loop from stream position 0. -/
noncomputable def gen_random_pts_around_origin (seedFn : ℤ → ℕ → ℝ)
    (ambient : ℕ → ℝ) (seed : Option ℤ) (N : ℕ)
    (minDistToOrigin maxDistToOrigin minThetaInDegree maxThetaInDegree : ℝ)
    (zUp : Bool) : Option (List V3) :=
  let u := match seed with
    | some s => seedFn s
    | none => ambient
  genPts u (minThetaInDegree * Real.pi / 180) (maxThetaInDegree * Real.pi / 180)
    minDistToOrigin maxDistToOrigin zUp N 0

/-! ## Camera module: `look_at_to_c2w`

The look-at builder divides by vector norms without validating its
inputs; with IEEE doubles a degenerate input makes it compute `0/0`, and
the resulting NaNs propagate to the returned matrix.  We therefore embed
its scalars as `FReal`: a finite double modelled by an exact real, or
NaN.  All arithmetic on finite operands is idealised as exact. -/

/-- Componentwise `np.array(a) - np.array(b)` on 3-vectors. -/
noncomputable def V3.sub (a b : V3) : V3 := ⟨a.x - b.x, a.y - b.y, a.z - b.z⟩

/-- Euclidean dot product of 3-vectors. -/
noncomputable def V3.dot (a b : V3) : ℝ := a.x * b.x + a.y * b.y + a.z * b.z

/-- Cross product `np.cross` of 3-vectors. -/
noncomputable def V3.cross (a b : V3) : V3 :=
  ⟨a.y * b.z - a.z * b.y, a.z * b.x - a.x * b.z, a.x * b.y - a.y * b.x⟩

/-- An IEEE double as `look_at_to_c2w` manipulates it: a finite value
(exact real) or NaN.  The only divisions by zero this code can perform
are `0/0` (a vector of norm zero has all components zero), which IEEE
evaluates to NaN, and NaN propagates through every later operation. -/
inductive FReal where
  | nan : FReal
  | val : ℝ → FReal

/-- IEEE addition restricted to the values reachable here. -/
noncomputable def FReal.add : FReal → FReal → FReal
  | .val a, .val b => .val (a + b)
  | _, _ => .nan

/-- IEEE subtraction restricted to the values reachable here. -/
noncomputable def FReal.sub : FReal → FReal → FReal
  | .val a, .val b => .val (a - b)
  | _, _ => .nan

/-- IEEE multiplication restricted to the values reachable here. -/
noncomputable def FReal.mul : FReal → FReal → FReal
  | .val a, .val b => .val (a * b)
  | _, _ => .nan

open Classical in
/-- IEEE division restricted to the values reachable here: a zero
denominator yields NaN (in this code a zero denominator only ever occurs
together with a zero numerator, and `0/0 = NaN`). -/
noncomputable def FReal.div : FReal → FReal → FReal
  | .val a, .val b => if b = 0 then .nan else .val (a / b)
  | _, _ => .nan

open Classical in
/-- IEEE square root: NaN on negative arguments, NaN propagates. -/
noncomputable def FReal.sqrtF : FReal → FReal
  | .val a => if a < 0 then .nan else .val (Real.sqrt a)
  | .nan => .nan

/-- A 3-vector of IEEE doubles. -/
structure FV3 where
  x : FReal
  y : FReal
  z : FReal

/-- A finite 3-vector, injected into the IEEE model. -/
def V3.lift (a : V3) : FV3 := ⟨.val a.x, .val a.y, .val a.z⟩

/-- The all-NaN 3-vector. -/
def nanFV3 : FV3 := ⟨.nan, .nan, .nan⟩

/-- Cross product `np.cross` on IEEE 3-vectors. -/
noncomputable def FV3.crossF (a b : FV3) : FV3 :=
  ⟨(a.y.mul b.z).sub (a.z.mul b.y), (a.z.mul b.x).sub (a.x.mul b.z),
   (a.x.mul b.y).sub (a.y.mul b.x)⟩

/-- Norm `np.linalg.norm` on IEEE 3-vectors: the square root of the sum of
squares. -/
noncomputable def FV3.normF (a : FV3) : FReal :=
  ((a.x.mul a.x).add (a.y.mul a.y)).add (a.z.mul a.z) |>.sqrtF

/-- Componentwise division of a vector by a scalar (`v / np.linalg.norm(v)`). -/
noncomputable def FV3.divF (a : FV3) (s : FReal) : FV3 :=
  ⟨a.x.div s, a.y.div s, a.z.div s⟩

/-- Normalization `v / np.linalg.norm(v)`, the step the source repeats for
the direction, right and up vectors. -/
noncomputable def fnormalize (a : FV3) : FV3 := a.divF a.normF

/-- The `rotation_transform` matrix: `np.zeros((4,4))` with rows 0-2 holding
`camera_right`, `camera_up`, `camera_direction` in their first three
columns and `rotation_transform[-1,-1] = 1`. -/
noncomputable def rotationTransform (r u d : FV3) : Matrix (Fin 4) (Fin 4) FReal :=
  Matrix.of ![![r.x, r.y, r.z, .val 0], ![u.x, u.y, u.z, .val 0],
              ![d.x, d.y, d.z, .val 0], ![.val 0, .val 0, .val 0, .val 1]]

/-- The `translation_transform` matrix: `np.eye(4)` with last column
`[-camera_position; 1]`. -/
noncomputable def translationTransform (e : V3) : Matrix (Fin 4) (Fin 4) FReal :=
  Matrix.of ![![.val 1, .val 0, .val 0, .val (-e.x)],
              ![.val 0, .val 1, .val 0, .val (-e.y)],
              ![.val 0, .val 0, .val 1, .val (-e.z)],
              ![.val 0, .val 0, .val 0, .val 1]]

/-- A row-by-column IEEE dot product of length 4 (`np.matmul` entry). -/
noncomputable def fdot4 (a b : Fin 4 → FReal) : FReal :=
  (((a 0).mul (b 0)).add ((a 1).mul (b 1))).add
    (((a 2).mul (b 2)).add ((a 3).mul (b 3)))

/-- Product `np.matmul` on 4×4 IEEE matrices. -/
noncomputable def fmatMul (A B : Matrix (Fin 4) (Fin 4) FReal) :
    Matrix (Fin 4) (Fin 4) FReal :=
  Matrix.of fun i j => fdot4 (fun k => A i k) (fun k => B k j)

/-- The finite value of an IEEE scalar (0 as a placeholder on NaN, used
only under a no-NaN guard). -/
noncomputable def FReal.toReal : FReal → ℝ
  | .nan => 0
  | .val a => a

/-- A finite real matrix, injected into the IEEE model. -/
noncomputable def liftMat (M : Matrix (Fin 4) (Fin 4) ℝ) :
    Matrix (Fin 4) (Fin 4) FReal :=
  Matrix.of fun i j => .val (M i j)

open Classical in
/-- Inverse `np.linalg.inv` on the matrices this code can feed it: on a NaN-free
matrix it returns the exact inverse (float roundoff idealised away;
Mathlib's `⁻¹` is the true inverse whenever the determinant is nonzero,
which holds for every finite matrix reachable here, a rigid transform);
any NaN entry propagates through the LU factorisation and every entry of
the result is NaN. -/
noncomputable def npInv (A : Matrix (Fin 4) (Fin 4) FReal) :
    Matrix (Fin 4) (Fin 4) FReal :=
  if ∀ i j, A i j ≠ FReal.nan then liftMat (Matrix.of fun i j => (A i j).toReal)⁻¹
  else Matrix.of fun _ _ => FReal.nan

/-- Embedding of `look_at_to_c2w(camera_position, target_position, up_dir)`: normalise
`camera_position - target_position` into `camera_direction`, normalise
`np.cross(up_dir, camera_direction)` into `camera_right`, normalise
`np.cross(camera_direction, camera_right)` into `camera_up`, assemble the
rotation and translation transforms, multiply, and return the inverse. -/
noncomputable def look_at_to_c2w (cameraPosition targetPosition upDir : V3) :
    Matrix (Fin 4) (Fin 4) FReal :=
  let cameraDirection := fnormalize (V3.lift (cameraPosition.sub targetPosition))
  let cameraRight := fnormalize (FV3.crossF (V3.lift upDir) cameraDirection)
  let cameraUp := fnormalize (FV3.crossF cameraDirection cameraRight)
  npInv (fmatMul (rotationTransform cameraRight cameraUp cameraDirection)
    (translationTransform cameraPosition))

/-- The upper-left 3×3 block of a 4×4 matrix. -/
def upperLeft (M : Matrix (Fin 4) (Fin 4) ℝ) : Matrix (Fin 3) (Fin 3) ℝ :=
  Matrix.of fun i j => M i.castSucc j.castSucc

/-! ## Generic fold lemmas for Python's `min` / `max` over sequences -/

theorem le_foldl_max {α : Type} [LinearOrder α] (l : List α) (a : α) :
    a ≤ l.foldl max a := by
  induction l generalizing a with
  | nil => exact le_refl a
  | cons b t ih => exact le_trans (le_max_left a b) (ih (max a b))

theorem le_foldl_max_of_mem {α : Type} [LinearOrder α] {x : α} {l : List α}
    (hx : x ∈ l) (a : α) : x ≤ l.foldl max a := by
  induction l generalizing a with
  | nil => cases hx
  | cons b t ih =>
    rcases List.mem_cons.mp hx with h | h
    · subst h; exact le_trans (le_max_right a x) (le_foldl_max t (max a x))
    · exact ih h (max a b)

theorem foldl_max_cases {α : Type} [LinearOrder α] (l : List α) (a : α) :
    l.foldl max a = a ∨ l.foldl max a ∈ l := by
  induction l generalizing a with
  | nil => exact Or.inl rfl
  | cons b t ih =>
    rw [List.foldl_cons]
    rcases ih (max a b) with h | h
    · rcases max_cases a b with ⟨h1, _⟩ | ⟨h1, _⟩
      · exact Or.inl (h.trans h1)
      · exact Or.inr (by rw [h, h1]; exact List.mem_cons_self b t)
    · exact Or.inr (List.mem_cons_of_mem b h)

theorem foldl_min_le {α : Type} [LinearOrder α] (l : List α) (a : α) :
    l.foldl min a ≤ a := by
  induction l generalizing a with
  | nil => exact le_refl a
  | cons b t ih => exact le_trans (ih (min a b)) (min_le_left a b)

theorem foldl_min_le_of_mem {α : Type} [LinearOrder α] {x : α} {l : List α}
    (hx : x ∈ l) (a : α) : l.foldl min a ≤ x := by
  induction l generalizing a with
  | nil => cases hx
  | cons b t ih =>
    rcases List.mem_cons.mp hx with h | h
    · subst h; exact le_trans (foldl_min_le t (min a x)) (min_le_right a x)
    · exact ih h (min a b)

theorem foldl_min_cases {α : Type} [LinearOrder α] (l : List α) (a : α) :
    l.foldl min a = a ∨ l.foldl min a ∈ l := by
  induction l generalizing a with
  | nil => exact Or.inl rfl
  | cons b t ih =>
    rw [List.foldl_cons]
    rcases ih (min a b) with h | h
    · rcases min_cases a b with ⟨h1, _⟩ | ⟨h1, _⟩
      · exact Or.inl (h.trans h1)
      · exact Or.inr (by rw [h, h1]; exact List.mem_cons_self b t)
    · exact Or.inr (List.mem_cons_of_mem b h)

/-! Analogous lemmas for Python's `max` over `mathutils.Vector`s, which
compares by squared length and keeps the first maximum on ties. -/

theorem maxBySq_cases (a : Q3) (l : List Q3) : maxBySq a l = a ∨ maxBySq a l ∈ l := by
  induction l generalizing a with
  | nil => exact Or.inl rfl
  | cons b t ih =>
    rw [maxBySq, List.foldl_cons]
    rcases ih (if sqLen a < sqLen b then b else a) with h | h
    · rw [maxBySq] at h
      rw [h]
      by_cases hc : sqLen a < sqLen b
      · exact Or.inr (by rw [if_pos hc]; exact List.mem_cons_self b t)
      · exact Or.inl (if_neg hc)
    · exact Or.inr (List.mem_cons_of_mem b (by rw [maxBySq] at h; exact h))

theorem sqLen_le_maxBySq (a : Q3) (l : List Q3) : sqLen a ≤ sqLen (maxBySq a l) := by
  induction l generalizing a with
  | nil => exact le_refl _
  | cons b t ih =>
    rw [maxBySq, List.foldl_cons]
    have step : sqLen a ≤ sqLen (if sqLen a < sqLen b then b else a) := by
      by_cases hc : sqLen a < sqLen b
      · rw [if_pos hc]; exact le_of_lt hc
      · rw [if_neg hc]
    exact le_trans step (ih _)

theorem sqLen_le_maxBySq_of_mem {v : Q3} {l : List Q3} (hv : v ∈ l) (a : Q3) :
    sqLen v ≤ sqLen (maxBySq a l) := by
  induction l generalizing a with
  | nil => cases hv
  | cons b t ih =>
    rw [maxBySq, List.foldl_cons]
    rcases List.mem_cons.mp hv with h | h
    · subst h
      have step : sqLen v ≤ sqLen (if sqLen a < sqLen v then v else a) := by
        by_cases hc : sqLen a < sqLen v
        · rw [if_pos hc]
        · rw [if_neg hc]; exact le_of_not_lt hc
      exact le_trans step (sqLen_le_maxBySq _ t)
    · exact ih h _

/-! Componentwise description of the `scene_bbox` accumulator folds. -/

theorem bboxMinFold_x (pts : List Q3) (acc : TopQ3) :
    (pts.foldl bboxMinStep acc).x =
      (pts.map fun p => ((p.x : ℚ) : WithTop ℚ)).foldl min acc.x := by
  induction pts generalizing acc with
  | nil => rfl
  | cons p t ih => rw [List.foldl_cons, List.map_cons, List.foldl_cons, ih]; rfl

theorem bboxMinFold_y (pts : List Q3) (acc : TopQ3) :
    (pts.foldl bboxMinStep acc).y =
      (pts.map fun p => ((p.y : ℚ) : WithTop ℚ)).foldl min acc.y := by
  induction pts generalizing acc with
  | nil => rfl
  | cons p t ih => rw [List.foldl_cons, List.map_cons, List.foldl_cons, ih]; rfl

theorem bboxMinFold_z (pts : List Q3) (acc : TopQ3) :
    (pts.foldl bboxMinStep acc).z =
      (pts.map fun p => ((p.z : ℚ) : WithTop ℚ)).foldl min acc.z := by
  induction pts generalizing acc with
  | nil => rfl
  | cons p t ih => rw [List.foldl_cons, List.map_cons, List.foldl_cons, ih]; rfl

theorem bboxMaxFold_x (pts : List Q3) (acc : BotQ3) :
    (pts.foldl bboxMaxStep acc).x =
      (pts.map fun p => ((p.x : ℚ) : WithBot ℚ)).foldl max acc.x := by
  induction pts generalizing acc with
  | nil => rfl
  | cons p t ih => rw [List.foldl_cons, List.map_cons, List.foldl_cons, ih]; rfl

theorem bboxMaxFold_y (pts : List Q3) (acc : BotQ3) :
    (pts.foldl bboxMaxStep acc).y =
      (pts.map fun p => ((p.y : ℚ) : WithBot ℚ)).foldl max acc.y := by
  induction pts generalizing acc with
  | nil => rfl
  | cons p t ih => rw [List.foldl_cons, List.map_cons, List.foldl_cons, ih]; rfl

theorem bboxMaxFold_z (pts : List Q3) (acc : BotQ3) :
    (pts.foldl bboxMaxStep acc).z =
      (pts.map fun p => ((p.z : ℚ) : WithBot ℚ)).foldl max acc.z := by
  induction pts generalizing acc with
  | nil => rfl
  | cons p t ih => rw [List.foldl_cons, List.map_cons, List.foldl_cons, ih]; rfl

theorem topQ3_ext_mk {a : TopQ3} {u v w : WithTop ℚ} (hx : a.x = u) (hy : a.y = v)
    (hz : a.z = w) : a = ⟨u, v, w⟩ := by
  cases a
  simp only at hx hy hz
  rw [hx, hy, hz]

theorem botQ3_ext_mk {a : BotQ3} {u v w : WithBot ℚ} (hx : a.x = u) (hy : a.y = v)
    (hz : a.z = w) : a = ⟨u, v, w⟩ := by
  cases a
  simp only at hx hy hz
  rw [hx, hy, hz]

theorem foldl_min_top_attained (f : Q3 → ℚ) (pts : List Q3) (hne : pts ≠ []) :
    ∃ p ∈ pts, (pts.map fun q => ((f q : ℚ) : WithTop ℚ)).foldl min ⊤ = ↑(f p) := by
  rcases foldl_min_cases (pts.map fun q => ((f q : ℚ) : WithTop ℚ)) ⊤ with h | h
  · rcases pts with _ | ⟨p, t⟩
    · exact absurd rfl hne
    · have hmem : ((f p : ℚ) : WithTop ℚ) ∈ (p :: t).map fun q => ((f q : ℚ) : WithTop ℚ) :=
        List.mem_map_of_mem _ (List.mem_cons_self p t)
      have hle := foldl_min_le_of_mem hmem (⊤ : WithTop ℚ)
      rw [h] at hle
      exact absurd (top_le_iff.mp hle) WithTop.coe_ne_top
  · rcases List.mem_map.mp h with ⟨p, hp, hv⟩
    exact ⟨p, hp, hv.symm⟩

theorem foldl_max_bot_attained (f : Q3 → ℚ) (pts : List Q3) (hne : pts ≠ []) :
    ∃ p ∈ pts, (pts.map fun q => ((f q : ℚ) : WithBot ℚ)).foldl max ⊥ = ↑(f p) := by
  rcases foldl_max_cases (pts.map fun q => ((f q : ℚ) : WithBot ℚ)) ⊥ with h | h
  · rcases pts with _ | ⟨p, t⟩
    · exact absurd rfl hne
    · have hmem : ((f p : ℚ) : WithBot ℚ) ∈ (p :: t).map fun q => ((f q : ℚ) : WithBot ℚ) :=
        List.mem_map_of_mem _ (List.mem_cons_self p t)
      have hle := le_foldl_max_of_mem hmem (⊥ : WithBot ℚ)
      rw [h] at hle
      exact absurd (le_bot_iff.mp hle) WithBot.coe_ne_bot
  · rcases List.mem_map.mp h with ⟨p, hp, hv⟩
    exact ⟨p, hp, hv.symm⟩

theorem scene_bbox_ok (objs : List SceneObj) (ig : Bool) (h : objs ≠ []) :
    scene_bbox objs ig =
      .ok ((objs.flatMap (worldCorners ig)).foldl bboxMinStep ⟨⊤, ⊤, ⊤⟩,
           (objs.flatMap (worldCorners ig)).foldl bboxMaxStep ⟨⊥, ⊥, ⊥⟩) := by
  have hne : objs.isEmpty = false := by
    cases objs with
    | nil => exact absurd rfl h
    | cons o os => rfl
  rw [scene_bbox, hne]
  simp

/-- C6: for every non-empty set of input points — the world-space
`bound_box` corners of the scene's objects — `scene_bbox` returns the
componentwise min/max reduction: every input point lies within
`[min, max]` componentwise, and on every axis each of `min` and `max` is
attained by at least one input point. -/
theorem scene_bbox_minmax (objs : List SceneObj) (ig : Bool)
    (h : objs.flatMap (worldCorners ig) ≠ []) :
    ∃ mn mx : Q3,
      scene_bbox objs ig = .ok (⟨↑mn.x, ↑mn.y, ↑mn.z⟩, ⟨↑mx.x, ↑mx.y, ↑mx.z⟩) ∧
      (∀ p ∈ objs.flatMap (worldCorners ig),
        mn.x ≤ p.x ∧ mn.y ≤ p.y ∧ mn.z ≤ p.z ∧
        p.x ≤ mx.x ∧ p.y ≤ mx.y ∧ p.z ≤ mx.z) ∧
      (∃ p ∈ objs.flatMap (worldCorners ig), p.x = mn.x) ∧
      (∃ p ∈ objs.flatMap (worldCorners ig), p.y = mn.y) ∧
      (∃ p ∈ objs.flatMap (worldCorners ig), p.z = mn.z) ∧
      (∃ p ∈ objs.flatMap (worldCorners ig), p.x = mx.x) ∧
      (∃ p ∈ objs.flatMap (worldCorners ig), p.y = mx.y) ∧
      (∃ p ∈ objs.flatMap (worldCorners ig), p.z = mx.z) := by
  set pts := objs.flatMap (worldCorners ig) with hpts
  have hobjs : objs ≠ [] := by
    intro he
    apply h
    rw [hpts, he]
    rfl
  obtain ⟨p1, hp1, he1⟩ := foldl_min_top_attained Q3.x pts h
  obtain ⟨p2, hp2, he2⟩ := foldl_min_top_attained Q3.y pts h
  obtain ⟨p3, hp3, he3⟩ := foldl_min_top_attained Q3.z pts h
  obtain ⟨q1, hq1, hf1⟩ := foldl_max_bot_attained Q3.x pts h
  obtain ⟨q2, hq2, hf2⟩ := foldl_max_bot_attained Q3.y pts h
  obtain ⟨q3, hq3, hf3⟩ := foldl_max_bot_attained Q3.z pts h
  refine ⟨⟨p1.x, p2.y, p3.z⟩, ⟨q1.x, q2.y, q3.z⟩, ?_, ?_, ?_, ?_, ?_, ?_, ?_, ?_⟩
  · rw [scene_bbox_ok objs ig hobjs]
    refine congrArg Except.ok (Prod.ext ?_ ?_)
    · exact topQ3_ext_mk (by rw [bboxMinFold_x, he1]) (by rw [bboxMinFold_y, he2])
        (by rw [bboxMinFold_z, he3])
    · exact botQ3_ext_mk (by rw [bboxMaxFold_x, hf1]) (by rw [bboxMaxFold_y, hf2])
        (by rw [bboxMaxFold_z, hf3])
  · intro p hp
    have cx : (pts.map fun q => ((q.x : ℚ) : WithTop ℚ)).foldl min ⊤ ≤ ↑p.x :=
      foldl_min_le_of_mem (List.mem_map_of_mem (fun q => ((q.x : ℚ) : WithTop ℚ)) hp) ⊤
    have cy : (pts.map fun q => ((q.y : ℚ) : WithTop ℚ)).foldl min ⊤ ≤ ↑p.y :=
      foldl_min_le_of_mem (List.mem_map_of_mem (fun q => ((q.y : ℚ) : WithTop ℚ)) hp) ⊤
    have cz : (pts.map fun q => ((q.z : ℚ) : WithTop ℚ)).foldl min ⊤ ≤ ↑p.z :=
      foldl_min_le_of_mem (List.mem_map_of_mem (fun q => ((q.z : ℚ) : WithTop ℚ)) hp) ⊤
    have dx : ((p.x : ℚ) : WithBot ℚ) ≤
        (pts.map fun q => ((q.x : ℚ) : WithBot ℚ)).foldl max ⊥ :=
      le_foldl_max_of_mem (List.mem_map_of_mem (fun q => ((q.x : ℚ) : WithBot ℚ)) hp) ⊥
    have dy : ((p.y : ℚ) : WithBot ℚ) ≤
        (pts.map fun q => ((q.y : ℚ) : WithBot ℚ)).foldl max ⊥ :=
      le_foldl_max_of_mem (List.mem_map_of_mem (fun q => ((q.y : ℚ) : WithBot ℚ)) hp) ⊥
    have dz : ((p.z : ℚ) : WithBot ℚ) ≤
        (pts.map fun q => ((q.z : ℚ) : WithBot ℚ)).foldl max ⊥ :=
      le_foldl_max_of_mem (List.mem_map_of_mem (fun q => ((q.z : ℚ) : WithBot ℚ)) hp) ⊥
    rw [he1] at cx
    rw [he2] at cy
    rw [he3] at cz
    rw [hf1] at dx
    rw [hf2] at dy
    rw [hf3] at dz
    exact ⟨WithTop.coe_le_coe.mp cx, WithTop.coe_le_coe.mp cy, WithTop.coe_le_coe.mp cz,
           WithBot.coe_le_coe.mp dx, WithBot.coe_le_coe.mp dy, WithBot.coe_le_coe.mp dz⟩
  · exact ⟨p1, hp1, rfl⟩
  · exact ⟨p2, hp2, rfl⟩
  · exact ⟨p3, hp3, rfl⟩
  · exact ⟨q1, hq1, rfl⟩
  · exact ⟨q2, hq2, rfl⟩
  · exact ⟨q3, hq3, rfl⟩

theorem get_center_spec (a : ℚ) (t : List ℚ) :
    ∃ mn mx : ℚ, (∀ v ∈ a :: t, mn ≤ v ∧ v ≤ mx) ∧ mn ∈ a :: t ∧ mx ∈ a :: t ∧
      get_center (a :: t) = (mn + mx) / 2 := by
  refine ⟨t.foldl min a, t.foldl max a, ?_, ?_, ?_, ?_⟩
  · intro v hv
    rcases List.mem_cons.mp hv with h | h
    · subst h; exact ⟨foldl_min_le t v, le_foldl_max t v⟩
    · exact ⟨foldl_min_le_of_mem h a, le_foldl_max_of_mem h a⟩
  · rcases foldl_min_cases t a with h | h
    · rw [h]; exact List.mem_cons_self a t
    · exact List.mem_cons_of_mem a h
  · rcases foldl_max_cases t a with h | h
    · rw [h]; exact List.mem_cons_self a t
    · exact List.mem_cons_of_mem a h
  · simp only [get_center]; ring

theorem maxBySq_radius_spec (c : Q3) (p : Q3) (rest : List Q3) :
    (∀ q ∈ p :: rest,
      sqLen (q.sub c) ≤ sqLen (maxBySq (p.sub c) (rest.map fun r => r.sub c))) ∧
    (∃ q ∈ p :: rest,
      sqLen (q.sub c) = sqLen (maxBySq (p.sub c) (rest.map fun r => r.sub c))) := by
  constructor
  · intro q hq
    rcases List.mem_cons.mp hq with h1 | h1
    · subst h1; exact sqLen_le_maxBySq (q.sub c) _
    · have h2 := List.mem_map_of_mem (fun r => Q3.sub r c) h1
      exact sqLen_le_maxBySq_of_mem h2 (p.sub c)
  · rcases maxBySq_cases (p.sub c) (rest.map fun r => r.sub c) with h1 | h1
    · exact ⟨p, List.mem_cons_self p rest, by rw [h1]⟩
    · rcases List.mem_map.mp h1 with ⟨q, hq, hv⟩
      refine ⟨q, List.mem_cons_of_mem p hq, ?_⟩
      rw [← hv]

theorem scene_sphere_ok (objs : List SceneObj) (ig : Bool) (p : Q3) (rest : List Q3)
    (h : objs.flatMap (worldVerts ig) = p :: rest) :
    scene_sphere objs ig =
      .ok (⟨get_center ((p :: rest).map Q3.x), get_center ((p :: rest).map Q3.y),
            get_center ((p :: rest).map Q3.z)⟩,
           sqLen (maxBySq (p.sub ⟨get_center ((p :: rest).map Q3.x),
                                  get_center ((p :: rest).map Q3.y),
                                  get_center ((p :: rest).map Q3.z)⟩)
                  (rest.map fun q => q.sub ⟨get_center ((p :: rest).map Q3.x),
                                            get_center ((p :: rest).map Q3.y),
                                            get_center ((p :: rest).map Q3.z)⟩))) := by
  have hobjs : objs.isEmpty = false := by
    cases objs with
    | nil => rw [show ([] : List SceneObj).flatMap (worldVerts ig) = [] from rfl] at h; cases h
    | cons o os => rfl
  simp only [scene_sphere, hobjs, Bool.false_eq_true, if_false, h]

/-- C1: for every non-empty set of input points (the world-space mesh
vertices), `scene_sphere` returns a center whose each coordinate is the
midpoint `(min + max) / 2` of that axis (min/max characterised by
containment and attainment over the input points), and a radius whose
square `rsq` is the maximum squared distance from the center to an input
point — so the returned radius `Real.sqrt rsq` (`b_sphere_radius.length`)
equals the maximum Euclidean distance `Real.sqrt (sqLen (p.sub c))` and
every input point lies within that radius of the center. -/
theorem scene_sphere_center_radius (objs : List SceneObj) (ig : Bool)
    (h : objs.flatMap (worldVerts ig) ≠ []) :
    ∃ c : Q3, ∃ rsq : ℚ,
      scene_sphere objs ig = .ok (c, rsq) ∧
      (∃ mn mx : ℚ, (∀ p ∈ objs.flatMap (worldVerts ig), mn ≤ p.x ∧ p.x ≤ mx) ∧
        (∃ p ∈ objs.flatMap (worldVerts ig), p.x = mn) ∧
        (∃ p ∈ objs.flatMap (worldVerts ig), p.x = mx) ∧ c.x = (mn + mx) / 2) ∧
      (∃ mn mx : ℚ, (∀ p ∈ objs.flatMap (worldVerts ig), mn ≤ p.y ∧ p.y ≤ mx) ∧
        (∃ p ∈ objs.flatMap (worldVerts ig), p.y = mn) ∧
        (∃ p ∈ objs.flatMap (worldVerts ig), p.y = mx) ∧ c.y = (mn + mx) / 2) ∧
      (∃ mn mx : ℚ, (∀ p ∈ objs.flatMap (worldVerts ig), mn ≤ p.z ∧ p.z ≤ mx) ∧
        (∃ p ∈ objs.flatMap (worldVerts ig), p.z = mn) ∧
        (∃ p ∈ objs.flatMap (worldVerts ig), p.z = mx) ∧ c.z = (mn + mx) / 2) ∧
      (∀ p ∈ objs.flatMap (worldVerts ig), sqLen (p.sub c) ≤ rsq) ∧
      (∃ p ∈ objs.flatMap (worldVerts ig), sqLen (p.sub c) = rsq) ∧
      (∀ p ∈ objs.flatMap (worldVerts ig),
        Real.sqrt ((sqLen (p.sub c) : ℚ) : ℝ) ≤ Real.sqrt ((rsq : ℚ) : ℝ)) ∧
      (∃ p ∈ objs.flatMap (worldVerts ig),
        Real.sqrt ((sqLen (p.sub c) : ℚ) : ℝ) = Real.sqrt ((rsq : ℚ) : ℝ)) := by
  obtain ⟨p, rest, hpr⟩ : ∃ p rest, objs.flatMap (worldVerts ig) = p :: rest := by
    rcases hv : objs.flatMap (worldVerts ig) with _ | ⟨p, rest⟩
    · exact absurd hv h
    · exact ⟨p, rest, rfl⟩
  rw [hpr]
  obtain ⟨mnx, mxx, hcx, hmnx, hmxx, hgx⟩ := get_center_spec p.x (rest.map Q3.x)
  obtain ⟨mny, mxy, hcy, hmny, hmxy, hgy⟩ := get_center_spec p.y (rest.map Q3.y)
  obtain ⟨mnz, mxz, hcz, hmnz, hmxz, hgz⟩ := get_center_spec p.z (rest.map Q3.z)
  refine ⟨⟨get_center ((p :: rest).map Q3.x), get_center ((p :: rest).map Q3.y),
           get_center ((p :: rest).map Q3.z)⟩, _,
          scene_sphere_ok objs ig p rest hpr, ?_, ?_, ?_, ?_, ?_, ?_, ?_⟩
  · refine ⟨mnx, mxx, ?_, ?_, ?_, ?_⟩
    · intro q hq
      exact hcx q.x (by
        rcases List.mem_cons.mp hq with h1 | h1
        · subst h1; exact List.mem_cons_self _ _
        · exact List.mem_cons_of_mem _ (List.mem_map_of_mem Q3.x h1))
    · rcases List.mem_cons.mp hmnx with h1 | h1
      · exact ⟨p, List.mem_cons_self p rest, h1.symm⟩
      · rcases List.mem_map.mp h1 with ⟨q, hq, hv⟩
        exact ⟨q, List.mem_cons_of_mem p hq, hv⟩
    · rcases List.mem_cons.mp hmxx with h1 | h1
      · exact ⟨p, List.mem_cons_self p rest, h1.symm⟩
      · rcases List.mem_map.mp h1 with ⟨q, hq, hv⟩
        exact ⟨q, List.mem_cons_of_mem p hq, hv⟩
    · show get_center ((p :: rest).map Q3.x) = (mnx + mxx) / 2
      rw [List.map_cons]; exact hgx
  · refine ⟨mny, mxy, ?_, ?_, ?_, ?_⟩
    · intro q hq
      exact hcy q.y (by
        rcases List.mem_cons.mp hq with h1 | h1
        · subst h1; exact List.mem_cons_self _ _
        · exact List.mem_cons_of_mem _ (List.mem_map_of_mem Q3.y h1))
    · rcases List.mem_cons.mp hmny with h1 | h1
      · exact ⟨p, List.mem_cons_self p rest, h1.symm⟩
      · rcases List.mem_map.mp h1 with ⟨q, hq, hv⟩
        exact ⟨q, List.mem_cons_of_mem p hq, hv⟩
    · rcases List.mem_cons.mp hmxy with h1 | h1
      · exact ⟨p, List.mem_cons_self p rest, h1.symm⟩
      · rcases List.mem_map.mp h1 with ⟨q, hq, hv⟩
        exact ⟨q, List.mem_cons_of_mem p hq, hv⟩
    · show get_center ((p :: rest).map Q3.y) = (mny + mxy) / 2
      rw [List.map_cons]; exact hgy
  · refine ⟨mnz, mxz, ?_, ?_, ?_, ?_⟩
    · intro q hq
      exact hcz q.z (by
        rcases List.mem_cons.mp hq with h1 | h1
        · subst h1; exact List.mem_cons_self _ _
        · exact List.mem_cons_of_mem _ (List.mem_map_of_mem Q3.z h1))
    · rcases List.mem_cons.mp hmnz with h1 | h1
      · exact ⟨p, List.mem_cons_self p rest, h1.symm⟩
      · rcases List.mem_map.mp h1 with ⟨q, hq, hv⟩
        exact ⟨q, List.mem_cons_of_mem p hq, hv⟩
    · rcases List.mem_cons.mp hmxz with h1 | h1
      · exact ⟨p, List.mem_cons_self p rest, h1.symm⟩
      · rcases List.mem_map.mp h1 with ⟨q, hq, hv⟩
        exact ⟨q, List.mem_cons_of_mem p hq, hv⟩
    · show get_center ((p :: rest).map Q3.z) = (mnz + mxz) / 2
      rw [List.map_cons]; exact hgz
  · exact (maxBySq_radius_spec _ p rest).1
  · exact (maxBySq_radius_spec _ p rest).2
  · intro q hq
    exact Real.sqrt_le_sqrt (by exact_mod_cast (maxBySq_radius_spec _ p rest).1 q hq)
  · obtain ⟨q, hq, he⟩ := (maxBySq_radius_spec _ p rest).2
    exact ⟨q, hq, by rw [he]⟩

/-- C1 witness: a concrete three-vertex scene. -/
theorem scene_sphere_center_radius_witness :
    ([⟨AffineM.id, [], [⟨1, 0, 0⟩, ⟨-1, 0, 0⟩, ⟨0, 0, 0⟩]⟩] : List SceneObj).flatMap
        (worldVerts true) ≠ [] ∧
      (∃ c : Q3, ∃ rsq : ℚ,
        scene_sphere [⟨AffineM.id, [], [⟨1, 0, 0⟩, ⟨-1, 0, 0⟩, ⟨0, 0, 0⟩]⟩] true =
          .ok (c, rsq)) :=
  ⟨by decide, by
    obtain ⟨c, rsq, hok, _⟩ :=
      scene_sphere_center_radius [⟨AffineM.id, [], [⟨1, 0, 0⟩, ⟨-1, 0, 0⟩, ⟨0, 0, 0⟩]⟩]
        true (by decide)
    exact ⟨c, rsq, hok⟩⟩

/-- C6 witness: a concrete two-corner scene. -/
theorem scene_bbox_minmax_witness :
    ([⟨AffineM.id, [⟨0, 0, 0⟩, ⟨1, 2, 3⟩], []⟩] : List SceneObj).flatMap
        (worldCorners true) ≠ [] ∧
      (∃ mn mx : Q3, scene_bbox [⟨AffineM.id, [⟨0, 0, 0⟩, ⟨1, 2, 3⟩], []⟩] true =
        .ok (⟨↑mn.x, ↑mn.y, ↑mn.z⟩, ⟨↑mx.x, ↑mx.y, ↑mx.z⟩)) :=
  ⟨by decide, by
    obtain ⟨mn, mx, hok, _⟩ :=
      scene_bbox_minmax [⟨AffineM.id, [⟨0, 0, 0⟩, ⟨1, 2, 3⟩], []⟩] true (by decide)
    exact ⟨mn, mx, hok⟩⟩

/-- C10: with a non-empty object list whose total vertex count is zero,
`scene_sphere` neither returns a bounding sphere nor reports the
empty-input `RuntimeError`: the center and radius are `None` and the
final `.length` access raises `AttributeError`. -/
theorem scene_sphere_zero_vertices_attrError (objs : List SceneObj) (ig : Bool)
    (h1 : objs ≠ []) (h2 : objs.flatMap (worldVerts ig) = []) :
    scene_sphere objs ig = .error .attributeErrorOnNone := by
  have hobjs : objs.isEmpty = false := by
    cases objs with
    | nil => exact absurd rfl h1
    | cons o os => rfl
  simp only [scene_sphere, hobjs, Bool.false_eq_true, if_false, h2]

/-- C10 witness: one object with an empty vertex list. -/
theorem scene_sphere_zero_vertices_attrError_witness :
    ([⟨AffineM.id, [], []⟩] : List SceneObj) ≠ [] ∧
      ([⟨AffineM.id, [], []⟩] : List SceneObj).flatMap (worldVerts true) = [] ∧
      scene_sphere [⟨AffineM.id, [], []⟩] true = .error .attributeErrorOnNone :=
  ⟨by decide, rfl,
    scene_sphere_zero_vertices_attrError [⟨AffineM.id, [], []⟩] true (by decide) rfl⟩

/-- C9 counterexample: a bounding-sphere request over zero points need not
fail with the empty-input `RuntimeError`: with one vertex-free object it
fails with `AttributeError` instead. -/
theorem bounding_volume_empty_cex :
    ([⟨AffineM.id, [], []⟩] : List SceneObj).flatMap (worldVerts true) = [] ∧
      scene_sphere [⟨AffineM.id, [], []⟩] true = .error .attributeErrorOnNone ∧
      SceneErr.attributeErrorOnNone ≠ SceneErr.runtimeNoObjects :=
  ⟨rfl, rfl, by decide⟩

/-- C9 amended: the empty-input `RuntimeError` is raised exactly when the
object list is empty (for both bounding-volume forms); with at least one
object `scene_bbox` never raises (even over zero corner points, where it
returns an unbounded box), and `scene_sphere` returns a result whenever
at least one vertex exists (while zero vertices raise `AttributeError`,
see C10). -/
theorem bounding_volume_empty_behaviour (objs : List SceneObj) (ig : Bool) :
    (objs = [] → scene_bbox objs ig = .error .runtimeNoObjects ∧
      scene_sphere objs ig = .error .runtimeNoObjects) ∧
    (objs ≠ [] → ∃ r, scene_bbox objs ig = .ok r) ∧
    (objs.flatMap (worldVerts ig) ≠ [] → ∃ r, scene_sphere objs ig = .ok r) := by
  refine ⟨?_, ?_, ?_⟩
  · rintro rfl; exact ⟨rfl, rfl⟩
  · intro h; exact ⟨_, scene_bbox_ok objs ig h⟩
  · intro h
    obtain ⟨p, rest, hpr⟩ : ∃ p rest, objs.flatMap (worldVerts ig) = p :: rest := by
      rcases hv : objs.flatMap (worldVerts ig) with _ | ⟨p, rest⟩
      · exact absurd hv h
      · exact ⟨p, rest, rfl⟩
    exact ⟨_, scene_sphere_ok objs ig p rest hpr⟩

/-- C9 amended witness: the three cases at concrete scenes. -/
theorem bounding_volume_empty_behaviour_witness :
    (scene_bbox [] true = .error .runtimeNoObjects ∧
      scene_sphere [] true = .error .runtimeNoObjects) ∧
    (∃ r, scene_bbox [⟨AffineM.id, [⟨0, 0, 0⟩], [⟨0, 0, 0⟩]⟩] true = .ok r) ∧
    (∃ r, scene_sphere [⟨AffineM.id, [⟨0, 0, 0⟩], [⟨0, 0, 0⟩]⟩] true = .ok r) :=
  ⟨(bounding_volume_empty_behaviour [] true).1 rfl,
   (bounding_volume_empty_behaviour [⟨AffineM.id, [⟨0, 0, 0⟩], [⟨0, 0, 0⟩]⟩] true).2.1
     (by decide),
   (bounding_volume_empty_behaviour [⟨AffineM.id, [⟨0, 0, 0⟩], [⟨0, 0, 0⟩]⟩] true).2.2
     (by decide)⟩

/-! ## Sampler theorems -/

/-- C7: when a seed is provided the sampler re-seeds the generator, so its
output is a function of the seed and parameters alone: two calls with the
same seed and identical parameters return identical sequences, element
for element, whatever ambient generator state each call starts from. -/
theorem gen_random_pts_seed_deterministic (seedFn : ℤ → ℕ → ℝ)
    (ambient1 ambient2 : ℕ → ℝ) (s : ℤ) (N : ℕ) (minR maxR minT maxT : ℝ)
    (zUp : Bool) :
    gen_random_pts_around_origin seedFn ambient1 (some s) N minR maxR minT maxT zUp =
      gen_random_pts_around_origin seedFn ambient2 (some s) N minR maxR minT maxT zUp :=
  rfl

theorem genPts_swap (u : ℕ → ℝ) (tmin tmax minR maxR : ℝ) (n k : ℕ) :
    genPts u tmin tmax minR maxR false n k =
      Option.map (List.map swapYZ) (genPts u tmin tmax minR maxR true n k) := by
  induction n generalizing k with
  | zero => rfl
  | succ n ih =>
    cases h : nextTheta u (k + 1) tmin tmax with
    | none => simp [genPts, h]
    | some v =>
      obtain ⟨theta, k2⟩ := v
      simp only [genPts, h, ih (k2 + 1)]
      cases genPts u tmin tmax minR maxR true n (k2 + 1) with
      | none => rfl
      | some l => rfl

/-- C8: for every seed and parameter set, the `z_up=False` output is the
`z_up=True` output with the Y and Z components of each point swapped,
pointwise and in the same sequence order. -/
theorem gen_random_pts_z_up_swap (seedFn : ℤ → ℕ → ℝ) (ambient : ℕ → ℝ)
    (seed : Option ℤ) (N : ℕ) (minR maxR minT maxT : ℝ) :
    gen_random_pts_around_origin seedFn ambient seed N minR maxR minT maxT false =
      Option.map (List.map swapYZ)
        (gen_random_pts_around_origin seedFn ambient seed N minR maxR minT maxT true) := by
  cases seed with
  | none => exact genPts_swap _ _ _ _ _ N 0
  | some s => exact genPts_swap _ _ _ _ _ N 0

theorem nextTheta_spec {u : ℕ → ℝ} {k : ℕ} {tmin tmax theta : ℝ} {k2 : ℕ}
    (h : nextTheta u k tmin tmax = some (theta, k2)) :
    tmin ≤ theta ∧ theta ≤ tmax ∧ 0 ≤ theta ∧ theta ≤ Real.pi := by
  rw [nextTheta] at h
  by_cases hex : ∃ j, tmin ≤ thetaDraw u (k + j) ∧ thetaDraw u (k + j) ≤ tmax
  · rw [dif_pos hex] at h
    have h3 := Option.some.inj h
    have h1 : thetaDraw u (k + Nat.find hex) = theta := congrArg Prod.fst h3
    refine ⟨h1 ▸ (Nat.find_spec hex).1, h1 ▸ (Nat.find_spec hex).2, ?_, ?_⟩
    · rw [← h1, thetaDraw]; exact Real.arccos_nonneg _
    · rw [← h1, thetaDraw]; exact Real.arccos_le_pi _
  · rw [dif_neg hex] at h
    cases h

theorem sample_point_norm (dist theta phi : ℝ) (hd0 : 0 ≤ dist) (zUp : Bool) :
    vnorm (if zUp then (⟨dist * Real.sin theta * Real.cos phi,
        dist * Real.sin theta * Real.sin phi, dist * Real.cos theta⟩ : V3)
      else swapYZ ⟨dist * Real.sin theta * Real.cos phi,
        dist * Real.sin theta * Real.sin phi, dist * Real.cos theta⟩) = dist := by
  have hsum : ∀ a b c : ℝ, a = dist * Real.sin theta * Real.cos phi →
      b = dist * Real.sin theta * Real.sin phi → c = dist * Real.cos theta →
      a ^ 2 + b ^ 2 + c ^ 2 = dist ^ 2 := by
    intro a b c ha hb hc
    subst ha; subst hb; subst hc
    linear_combination (dist ^ 2 * Real.sin theta ^ 2) * Real.sin_sq_add_cos_sq phi +
      dist ^ 2 * Real.sin_sq_add_cos_sq theta
  cases zUp with
  | true =>
    show Real.sqrt ((dist * Real.sin theta * Real.cos phi) ^ 2 +
      (dist * Real.sin theta * Real.sin phi) ^ 2 + (dist * Real.cos theta) ^ 2) = dist
    rw [hsum _ _ _ rfl rfl rfl, Real.sqrt_sq hd0]
  | false =>
    show Real.sqrt ((dist * Real.sin theta * Real.cos phi) ^ 2 +
      (dist * Real.cos theta) ^ 2 + (dist * Real.sin theta * Real.sin phi) ^ 2) = dist
    have hsw : (dist * Real.sin theta * Real.cos phi) ^ 2 + (dist * Real.cos theta) ^ 2 +
        (dist * Real.sin theta * Real.sin phi) ^ 2 = dist ^ 2 := by
      have := hsum _ _ _ rfl rfl rfl
      linarith
    rw [hsw, Real.sqrt_sq hd0]

theorem sample_point_polar (dist theta : ℝ) (hd : dist ≠ 0)
    (ht0 : 0 ≤ theta) (htpi : theta ≤ Real.pi) :
    Real.arccos (dist * Real.cos theta / dist) = theta := by
  rw [mul_comm, mul_div_assoc, div_self hd, mul_one, Real.arccos_cos ht0 htpi]

theorem genPts_bounds (u : ℕ → ℝ) (tmin tmax minR maxR : ℝ) (zUp : Bool)
    (hu : ∀ m, 0 ≤ u m ∧ u m < 1) (h0 : 0 ≤ minR) (h1 : minR ≤ maxR) :
    ∀ n k pts, genPts u tmin tmax minR maxR zUp n k = some pts →
      ∀ p ∈ pts,
        (minR ≤ vnorm p ∧ vnorm p ≤ maxR) ∧
        (vnorm p ≠ 0 →
          tmin ≤ Real.arccos ((if zUp then p.z else p.y) / vnorm p) ∧
          Real.arccos ((if zUp then p.z else p.y) / vnorm p) ≤ tmax) := by
  intro n
  induction n with
  | zero =>
    intro k pts h p hp
    rw [genPts] at h
    cases Option.some.inj h
    cases hp
  | succ n ih =>
    intro k pts h p hp
    rw [genPts] at h
    rcases hnt : nextTheta u (k + 1) tmin tmax with _ | ⟨theta, k2⟩
    · rw [hnt] at h; cases h
    · rw [hnt] at h
      simp only [Option.map_eq_some'] at h
      obtain ⟨rest, hrest, hcons⟩ := h
      obtain ⟨htmin, htmax, ht0, htpi⟩ := nextTheta_spec hnt
      set dist := minR + u k2 * (maxR - minR) with hdist
      have hd0 : 0 ≤ dist := by
        have := (hu k2).1
        nlinarith
      have hdmin : minR ≤ dist := by
        have := (hu k2).1
        nlinarith
      have hdmax : dist ≤ maxR := by
        have h2 := (hu k2).1
        have h3 := (hu k2).2
        nlinarith
      rw [← hcons] at hp
      rcases List.mem_cons.mp hp with hph | hpt
      · subst hph
        have hn := sample_point_norm dist theta (2 * Real.pi * u k) hd0 zUp
        constructor
        · rw [hn]
          exact ⟨hdmin, hdmax⟩
        · intro hnz
          have hdnz : dist ≠ 0 := by rw [hn] at hnz; exact hnz
          have haxis : (if zUp then
              (if zUp then (⟨dist * Real.sin theta * Real.cos (2 * Real.pi * u k),
                dist * Real.sin theta * Real.sin (2 * Real.pi * u k),
                dist * Real.cos theta⟩ : V3)
              else swapYZ ⟨dist * Real.sin theta * Real.cos (2 * Real.pi * u k),
                dist * Real.sin theta * Real.sin (2 * Real.pi * u k),
                dist * Real.cos theta⟩).z
            else
              (if zUp then (⟨dist * Real.sin theta * Real.cos (2 * Real.pi * u k),
                dist * Real.sin theta * Real.sin (2 * Real.pi * u k),
                dist * Real.cos theta⟩ : V3)
              else swapYZ ⟨dist * Real.sin theta * Real.cos (2 * Real.pi * u k),
                dist * Real.sin theta * Real.sin (2 * Real.pi * u k),
                dist * Real.cos theta⟩).y) = dist * Real.cos theta := by
            cases zUp with
            | true => rfl
            | false => rfl
          rw [hn, haxis, sample_point_polar dist theta hdnz ht0 htpi]
          exact ⟨htmin, htmax⟩
      · exact ih (k2 + 1) rest hrest p hpt

/-- C4: with valid radius and polar bounds and a generator whose
`random.random()` outputs lie in `[0, 1)`, every point of a returned
sample sequence lies at distance to the origin within
`[min_dist, max_dist]`, and (whenever the point is not the origin, where
a polar angle exists) its polar angle — measured from the Z axis when
`z_up`, from the Y axis otherwise — lies within the requested degree
bounds converted to radians. -/
theorem gen_random_pts_bounds (seedFn : ℤ → ℕ → ℝ) (ambient : ℕ → ℝ)
    (seed : Option ℤ) (N : ℕ) (minR maxR minT maxT : ℝ) (zUp : Bool)
    (pts : List V3)
    (hseed : ∀ s m, 0 ≤ seedFn s m ∧ seedFn s m < 1)
    (hamb : ∀ m, 0 ≤ ambient m ∧ ambient m < 1)
    (h0 : 0 ≤ minR) (h1 : minR ≤ maxR)
    (h2 : 0 ≤ minT) (h3 : minT ≤ maxT) (h4 : maxT ≤ 180)
    (hres : gen_random_pts_around_origin seedFn ambient seed N minR maxR minT maxT zUp
      = some pts) :
    ∀ p ∈ pts,
      (minR ≤ vnorm p ∧ vnorm p ≤ maxR) ∧
      (vnorm p ≠ 0 →
        minT * Real.pi / 180 ≤ Real.arccos ((if zUp then p.z else p.y) / vnorm p) ∧
        Real.arccos ((if zUp then p.z else p.y) / vnorm p) ≤ maxT * Real.pi / 180) := by
  cases seed with
  | none => exact genPts_bounds ambient _ _ minR maxR zUp hamb h0 h1 N 0 pts hres
  | some s => exact genPts_bounds (seedFn s) _ _ minR maxR zUp (hseed s) h0 h1 N 0 pts hres

theorem nextTheta_const_half (u : ℕ → ℝ) (hu : ∀ m, u m = 1 / 2) (k : ℕ)
    (tmin tmax : ℝ) (h1 : tmin ≤ Real.pi / 2) (h2 : Real.pi / 2 ≤ tmax) :
    nextTheta u k tmin tmax = some (Real.pi / 2, k + 1) := by
  have hdraw : ∀ i, thetaDraw u i = Real.pi / 2 := by
    intro i
    rw [thetaDraw, hu]
    norm_num [Real.arccos_zero]
  have hex : ∃ j, tmin ≤ thetaDraw u (k + j) ∧ thetaDraw u (k + j) ≤ tmax :=
    ⟨0, by rw [hdraw]; exact ⟨h1, h2⟩⟩
  rw [nextTheta, dif_pos hex]
  have hfind : Nat.find hex = 0 := by
    rw [Nat.find_eq_zero, hdraw]
    exact ⟨h1, h2⟩
  rw [hfind, hdraw]

theorem genPts_const_half_one (u : ℕ → ℝ) (hu : ∀ m, u m = 1 / 2)
    (tmin tmax minR maxR : ℝ) (h1 : tmin ≤ Real.pi / 2) (h2 : Real.pi / 2 ≤ tmax) :
    genPts u tmin tmax minR maxR true 1 0 =
      some [⟨-(minR + (maxR - minR) / 2), 0, 0⟩] := by
  have hnt := nextTheta_const_half u hu 1 tmin tmax h1 h2
  have hphi : 2 * Real.pi * u 0 = Real.pi := by rw [hu]; ring
  have hdist : minR + u 2 * (maxR - minR) = minR + (maxR - minR) / 2 := by
    rw [hu]; ring
  simp [genPts, hnt, hphi, hdist, Real.sin_pi, Real.cos_pi, Real.sin_pi_div_two,
    Real.cos_pi_div_two]

theorem tmin_zero_le : (0 : ℝ) * Real.pi / 180 ≤ Real.pi / 2 := by
  rw [zero_mul, zero_div]
  positivity

theorem tmax_180_ge : Real.pi / 2 ≤ (180 : ℝ) * Real.pi / 180 := by
  have h : (180 : ℝ) * Real.pi / 180 = Real.pi := by ring
  rw [h]
  linarith [Real.pi_pos]

/-- C3 counterexample: `min_dist_to_origin = 2 > 1 = max_dist_to_origin`
violates the claimed precondition, yet the call neither fails nor
diverges: it returns a normal one-point result (sampled from the reversed
interval), so no `InvalidRange` error is ever reported. -/
theorem gen_random_pts_invalid_range_cex :
    ¬ ((2 : ℝ) ≤ 1) ∧
      gen_random_pts_around_origin (fun _ _ => 1 / 2) (fun _ => 1 / 2) (some 0) 1
        2 1 0 180 true = some [⟨-(3 / 2), 0, 0⟩] := by
  refine ⟨by norm_num, ?_⟩
  have h := genPts_const_half_one (fun _ => (1 : ℝ) / 2) (fun _ => rfl)
    (0 * Real.pi / 180) (180 * Real.pi / 180) 2 1 tmin_zero_le tmax_180_ge
  calc gen_random_pts_around_origin (fun _ _ => 1 / 2) (fun _ => 1 / 2) (some 0) 1
        2 1 0 180 true
      = genPts (fun _ => (1 : ℝ) / 2) (0 * Real.pi / 180) (180 * Real.pi / 180)
          2 1 true 1 0 := rfl
    _ = some [⟨-(2 + (1 - 2) / 2), 0, 0⟩] := h
    _ = some [⟨-(3 / 2), 0, 0⟩] := by norm_num [V3.mk.injEq]

/-- C3 amended: the sampler performs no range validation.  An inverted
polar range (`min_theta_in_degree > max_theta_in_degree`) makes the
rejection loop reject every draw, so a call requesting at least one point
runs forever (modelled as `none`) instead of failing with `InvalidRange`;
an inverted radius range returns a normal result (see the
counterexample). -/
theorem gen_random_pts_inverted_polar_diverges (seedFn : ℤ → ℕ → ℝ)
    (ambient : ℕ → ℝ) (seed : Option ℤ) (N : ℕ) (minR maxR minT maxT : ℝ)
    (zUp : Bool) (hinv : maxT < minT) (hN : 1 ≤ N) :
    gen_random_pts_around_origin seedFn ambient seed N minR maxR minT maxT zUp
      = none := by
  obtain ⟨n, rfl⟩ : ∃ n, N = n + 1 := ⟨N - 1, by omega⟩
  have htt : maxT * Real.pi / 180 < minT * Real.pi / 180 := by
    have hpi := Real.pi_pos
    nlinarith
  have hnone : ∀ (v : ℕ → ℝ) (k : ℕ),
      nextTheta v k (minT * Real.pi / 180) (maxT * Real.pi / 180) = none := by
    intro v k
    rw [nextTheta, dif_neg]
    rintro ⟨j, hj1, hj2⟩
    exact absurd (hj1.trans hj2) (not_le.mpr htt)
  cases seed with
  | none => simp [gen_random_pts_around_origin, genPts, hnone]
  | some s => simp [gen_random_pts_around_origin, genPts, hnone]

/-- C3 amended witness: `min_theta=90 > 0=max_theta` with one requested
point: the call diverges and returns no result. -/
theorem gen_random_pts_inverted_polar_diverges_witness :
    ((0 : ℝ) < 90) ∧ (1 : ℕ) ≤ 1 ∧
      gen_random_pts_around_origin (fun _ _ => 1 / 2) (fun _ => 1 / 2) (some 0) 1
        0 1 90 0 true = none :=
  ⟨by norm_num, le_refl 1,
    gen_random_pts_inverted_polar_diverges (fun _ _ => 1 / 2) (fun _ => 1 / 2)
      (some 0) 1 0 1 90 0 true (by norm_num) (le_refl 1)⟩

/-- C4 witness: seed 0, one point, radii `[2, 3]`, polar `[0°, 180°]`,
with a constant-1/2 generator model: the call returns `(-5/2, 0, 0)`,
whose distance and polar angle satisfy the bounds. -/
theorem gen_random_pts_bounds_witness :
    gen_random_pts_around_origin (fun _ _ => 1 / 2) (fun _ => 1 / 2) (some 0) 1
        2 3 0 180 true = some [⟨-(5 / 2), 0, 0⟩] ∧
      (0 : ℝ) ≤ 2 ∧ (2 : ℝ) ≤ 3 ∧ (0 : ℝ) ≤ 0 ∧ (0 : ℝ) ≤ 180 ∧ (180 : ℝ) ≤ 180 ∧
      (∀ p ∈ [(⟨-(5 / 2), 0, 0⟩ : V3)],
        (2 ≤ vnorm p ∧ vnorm p ≤ 3) ∧
        (vnorm p ≠ 0 →
          0 * Real.pi / 180 ≤ Real.arccos ((if true then p.z else p.y) / vnorm p) ∧
          Real.arccos ((if true then p.z else p.y) / vnorm p) ≤ 180 * Real.pi / 180)) := by
  have heval : gen_random_pts_around_origin (fun _ _ => 1 / 2) (fun _ => 1 / 2)
      (some 0) 1 2 3 0 180 true = some [⟨-(5 / 2), 0, 0⟩] := by
    have h := genPts_const_half_one (fun _ => (1 : ℝ) / 2) (fun _ => rfl)
      (0 * Real.pi / 180) (180 * Real.pi / 180) 2 3 tmin_zero_le tmax_180_ge
    calc gen_random_pts_around_origin (fun _ _ => 1 / 2) (fun _ => 1 / 2) (some 0) 1
          2 3 0 180 true
        = genPts (fun _ => (1 : ℝ) / 2) (0 * Real.pi / 180) (180 * Real.pi / 180)
            2 3 true 1 0 := rfl
      _ = some [⟨-(2 + (3 - 2) / 2), 0, 0⟩] := h
      _ = some [⟨-(5 / 2), 0, 0⟩] := by norm_num [V3.mk.injEq]
  refine ⟨heval, by norm_num, by norm_num, le_refl 0, by norm_num, le_refl 180, ?_⟩
  exact gen_random_pts_bounds (fun _ _ => 1 / 2) (fun _ => 1 / 2) (some 0) 1
    2 3 0 180 true [⟨-(5 / 2), 0, 0⟩]
    (fun s m => by norm_num) (fun m => by norm_num)
    (by norm_num) (by norm_num) (le_refl 0) (by norm_num) (le_refl 180) heval

/-! ## Camera module: NaN propagation lemmas -/

theorem FReal.nan_mul (b : FReal) : FReal.mul .nan b = .nan := by cases b <;> rfl

theorem FReal.mul_nan (a : FReal) : FReal.mul a .nan = .nan := by cases a <;> rfl

theorem FReal.nan_add (b : FReal) : FReal.add .nan b = .nan := by cases b <;> rfl

theorem FReal.add_nan (a : FReal) : FReal.add a .nan = .nan := by cases a <;> rfl

theorem FReal.nan_sub (b : FReal) : FReal.sub .nan b = .nan := by cases b <;> rfl

theorem FReal.sub_nan (a : FReal) : FReal.sub a .nan = .nan := by cases a <;> rfl

theorem FReal.div_nan (a : FReal) : FReal.div a .nan = .nan := by cases a <;> rfl

theorem crossF_nan_right (a : FV3) : FV3.crossF a nanFV3 = nanFV3 := by
  simp [FV3.crossF, nanFV3, FReal.mul_nan, FReal.nan_sub]

theorem crossF_nan_left (b : FV3) : FV3.crossF nanFV3 b = nanFV3 := by
  simp [FV3.crossF, nanFV3, FReal.nan_mul, FReal.nan_sub]

theorem fnormalize_nanFV3 : fnormalize nanFV3 = nanFV3 := by
  simp [fnormalize, FV3.divF, FV3.normF, nanFV3, FReal.nan_mul, FReal.nan_add,
    FReal.sqrtF, FReal.div]

theorem fnormalize_zero : fnormalize (V3.lift ⟨0, 0, 0⟩) = nanFV3 := by
  have h1 : FV3.normF (V3.lift ⟨0, 0, 0⟩) = FReal.val 0 := by
    simp [FV3.normF, V3.lift, FReal.mul, FReal.add, FReal.sqrtF]
  rw [fnormalize, h1]
  simp [FV3.divF, V3.lift, FReal.div, nanFV3]

theorem fmatMul_rt_00_nan (r u d : FV3) (e : V3) (hr : r.x = FReal.nan) :
    fmatMul (rotationTransform r u d) (translationTransform e) 0 0 = FReal.nan := by
  have h : fmatMul (rotationTransform r u d) (translationTransform e) 0 0 =
      ((r.x.mul (FReal.val 1)).add (r.y.mul (FReal.val 0))).add
        ((r.z.mul (FReal.val 0)).add ((FReal.val 0).mul (FReal.val 0))) := rfl
  rw [h, hr, FReal.nan_mul, FReal.nan_add, FReal.nan_add]

theorem npInv_of_nan (A : Matrix (Fin 4) (Fin 4) FReal) (i0 j0 : Fin 4)
    (h : A i0 j0 = FReal.nan) : ∀ i j, npInv A i j = FReal.nan := by
  intro i j
  rw [npInv, if_neg]
  · rfl
  · intro hall
    exact hall i0 j0 h

/-! ## Camera module: the finite path of the normalizations -/

theorem dot_self_pos (v : V3) (hv : v ≠ ⟨0, 0, 0⟩) : 0 < V3.dot v v := by
  obtain ⟨x, y, z⟩ := v
  rw [V3.dot]
  by_contra hle
  push_neg at hle
  have hx2 : x * x = 0 :=
    le_antisymm (by nlinarith [mul_self_nonneg y, mul_self_nonneg z]) (mul_self_nonneg x)
  have hy2 : y * y = 0 :=
    le_antisymm (by nlinarith [mul_self_nonneg x, mul_self_nonneg z]) (mul_self_nonneg y)
  have hz2 : z * z = 0 :=
    le_antisymm (by nlinarith [mul_self_nonneg x, mul_self_nonneg y]) (mul_self_nonneg z)
  exact hv (by
    rw [mul_self_eq_zero.mp hx2, mul_self_eq_zero.mp hy2, mul_self_eq_zero.mp hz2])

theorem normF_lift (v : V3) :
    FV3.normF (V3.lift v) = FReal.val (Real.sqrt (V3.dot v v)) := by
  have hnn : (0 : ℝ) ≤ v.x * v.x + v.y * v.y + v.z * v.z := by
    nlinarith [mul_self_nonneg v.x, mul_self_nonneg v.y, mul_self_nonneg v.z]
  simp only [FV3.normF, V3.lift, FReal.mul, FReal.add, FReal.sqrtF]
  rw [if_neg (not_lt.mpr hnn)]
  rfl

theorem fnormalize_lift (v : V3) (hv : v ≠ ⟨0, 0, 0⟩) :
    fnormalize (V3.lift v) =
      V3.lift ⟨v.x / Real.sqrt (V3.dot v v), v.y / Real.sqrt (V3.dot v v),
               v.z / Real.sqrt (V3.dot v v)⟩ := by
  have hn : Real.sqrt (V3.dot v v) ≠ 0 :=
    ne_of_gt (Real.sqrt_pos.mpr (dot_self_pos v hv))
  rw [fnormalize, normF_lift]
  simp [FV3.divF, V3.lift, FReal.div, hn]

theorem crossF_lift (a b : V3) :
    FV3.crossF (V3.lift a) (V3.lift b) = V3.lift (V3.cross a b) := rfl

/-! ## Camera module: degenerate inputs produce an all-NaN matrix -/

theorem look_at_all_nan_of_dir_zero (cam target up : V3)
    (h : V3.sub cam target = ⟨0, 0, 0⟩) :
    ∀ i j, look_at_to_c2w cam target up i j = FReal.nan := by
  intro i j
  simp only [look_at_to_c2w, h, fnormalize_zero, crossF_nan_right, crossF_nan_left,
    fnormalize_nanFV3]
  exact npInv_of_nan _ 0 0 (fmatMul_rt_00_nan nanFV3 nanFV3 nanFV3 cam rfl) i j

theorem look_at_all_nan_of_cross_zero (cam target up : V3)
    (hne : V3.sub cam target ≠ ⟨0, 0, 0⟩)
    (h : V3.cross up (V3.sub cam target) = ⟨0, 0, 0⟩) :
    ∀ i j, look_at_to_c2w cam target up i j = FReal.nan := by
  intro i j
  have h1 := congrArg V3.x h
  have h2 := congrArg V3.y h
  have h3 := congrArg V3.z h
  simp only [V3.cross] at h1 h2 h3
  have hcross : V3.cross up
      ⟨(V3.sub cam target).x / Real.sqrt (V3.dot (V3.sub cam target) (V3.sub cam target)),
       (V3.sub cam target).y / Real.sqrt (V3.dot (V3.sub cam target) (V3.sub cam target)),
       (V3.sub cam target).z / Real.sqrt (V3.dot (V3.sub cam target) (V3.sub cam target))⟩
      = ⟨0, 0, 0⟩ := by
    rw [V3.cross]
    have e1 : up.y * ((V3.sub cam target).z /
          Real.sqrt (V3.dot (V3.sub cam target) (V3.sub cam target))) -
        up.z * ((V3.sub cam target).y /
          Real.sqrt (V3.dot (V3.sub cam target) (V3.sub cam target))) =
        (up.y * (V3.sub cam target).z - up.z * (V3.sub cam target).y) /
          Real.sqrt (V3.dot (V3.sub cam target) (V3.sub cam target)) := by ring
    have e2 : up.z * ((V3.sub cam target).x /
          Real.sqrt (V3.dot (V3.sub cam target) (V3.sub cam target))) -
        up.x * ((V3.sub cam target).z /
          Real.sqrt (V3.dot (V3.sub cam target) (V3.sub cam target))) =
        (up.z * (V3.sub cam target).x - up.x * (V3.sub cam target).z) /
          Real.sqrt (V3.dot (V3.sub cam target) (V3.sub cam target)) := by ring
    have e3 : up.x * ((V3.sub cam target).y /
          Real.sqrt (V3.dot (V3.sub cam target) (V3.sub cam target))) -
        up.y * ((V3.sub cam target).x /
          Real.sqrt (V3.dot (V3.sub cam target) (V3.sub cam target))) =
        (up.x * (V3.sub cam target).y - up.y * (V3.sub cam target).x) /
          Real.sqrt (V3.dot (V3.sub cam target) (V3.sub cam target)) := by ring
    rw [e1, e2, e3, h1, h2, h3, zero_div]
  simp only [look_at_to_c2w, fnormalize_lift (V3.sub cam target) hne, crossF_lift,
    hcross, fnormalize_zero, crossF_nan_right, fnormalize_nanFV3]
  exact npInv_of_nan _ 0 0 (fmatMul_rt_00_nan nanFV3 _ _ cam rfl) i j

/-- C2 counterexample: at `eye = target = (0,0,5)` (up `(0,0,1)`) the
builder does not fail with any error: it synchronously returns a matrix,
and that matrix contains NaN (entry (0,0) shown) — the `0/0` of the
direction normalization propagates to the output. -/
theorem look_at_no_validation_cex :
    look_at_to_c2w ⟨0, 0, 5⟩ ⟨0, 0, 5⟩ ⟨0, 0, 1⟩ 0 0 = FReal.nan := by
  have h : V3.sub ⟨0, 0, 5⟩ ⟨0, 0, 5⟩ = (⟨0, 0, 0⟩ : V3) := by
    rw [V3.sub]
    norm_num
  exact look_at_all_nan_of_dir_zero _ _ _ h 0 0

/-- C2 amended: `look_at_to_c2w` performs no input validation and defines
no `DegenerateDirection` / `DegenerateUp` errors: whenever the eye equals
the target, or the up vector is parallel to the eye-to-target direction
(their cross product vanishes), the normalizations compute `0/0` and the
function synchronously returns a matrix every entry of which is NaN. -/
theorem look_at_degenerate_nan (cam target up : V3)
    (h : cam = target ∨ V3.cross up (V3.sub cam target) = ⟨0, 0, 0⟩) :
    ∀ i j, look_at_to_c2w cam target up i j = FReal.nan := by
  by_cases hz : V3.sub cam target = ⟨0, 0, 0⟩
  · exact look_at_all_nan_of_dir_zero _ _ _ hz
  · rcases h with h | h
    · refine absurd ?_ hz
      rw [h, V3.sub]
      simp
    · exact look_at_all_nan_of_cross_zero _ _ _ hz h

/-- C2 amended witness: the degenerate input `eye = target = (0,0,5)`. -/
theorem look_at_degenerate_nan_witness :
    ((⟨0, 0, 5⟩ : V3) = ⟨0, 0, 5⟩ ∨
      V3.cross ⟨0, 0, 1⟩ (V3.sub ⟨0, 0, 5⟩ ⟨0, 0, 5⟩) = ⟨0, 0, 0⟩) ∧
    (∀ i j, look_at_to_c2w ⟨0, 0, 5⟩ ⟨0, 0, 5⟩ ⟨0, 0, 1⟩ i j = FReal.nan) :=
  ⟨Or.inl rfl, look_at_degenerate_nan _ _ _ (Or.inl rfl)⟩

/-! ## Camera module: real vector algebra for the well-formed path -/

theorem V3.dot_comm (a b : V3) : V3.dot a b = V3.dot b a := by
  rw [V3.dot, V3.dot]
  ring

theorem lagrange_cross (a b : V3) :
    V3.dot (V3.cross a b) (V3.cross a b) =
      V3.dot a a * V3.dot b b - V3.dot a b ^ 2 := by
  obtain ⟨a1, a2, a3⟩ := a
  obtain ⟨b1, b2, b3⟩ := b
  simp only [V3.dot, V3.cross]
  ring

theorem dot_cross_left (a b : V3) : V3.dot (V3.cross a b) a = 0 := by
  obtain ⟨a1, a2, a3⟩ := a
  obtain ⟨b1, b2, b3⟩ := b
  simp only [V3.dot, V3.cross]
  ring

theorem dot_cross_right (a b : V3) : V3.dot (V3.cross a b) b = 0 := by
  obtain ⟨a1, a2, a3⟩ := a
  obtain ⟨b1, b2, b3⟩ := b
  simp only [V3.dot, V3.cross]
  ring

theorem dot_scaled_right (a w : V3) (n : ℝ) :
    V3.dot a ⟨w.x / n, w.y / n, w.z / n⟩ = V3.dot a w / n := by
  obtain ⟨a1, a2, a3⟩ := a
  obtain ⟨w1, w2, w3⟩ := w
  simp only [V3.dot]
  ring

theorem dot_normalized_self (v : V3) (hv : v ≠ ⟨0, 0, 0⟩) :
    V3.dot ⟨v.x / Real.sqrt (V3.dot v v), v.y / Real.sqrt (V3.dot v v),
            v.z / Real.sqrt (V3.dot v v)⟩
           ⟨v.x / Real.sqrt (V3.dot v v), v.y / Real.sqrt (V3.dot v v),
            v.z / Real.sqrt (V3.dot v v)⟩ = 1 := by
  have hpos := dot_self_pos v hv
  have hn : Real.sqrt (V3.dot v v) ≠ 0 := ne_of_gt (Real.sqrt_pos.mpr hpos)
  have hsq : Real.sqrt (V3.dot v v) * Real.sqrt (V3.dot v v) = V3.dot v v :=
    Real.mul_self_sqrt (le_of_lt hpos)
  have hexp : V3.dot ⟨v.x / Real.sqrt (V3.dot v v), v.y / Real.sqrt (V3.dot v v),
      v.z / Real.sqrt (V3.dot v v)⟩
      ⟨v.x / Real.sqrt (V3.dot v v), v.y / Real.sqrt (V3.dot v v),
      v.z / Real.sqrt (V3.dot v v)⟩ =
      V3.dot v v / (Real.sqrt (V3.dot v v) * Real.sqrt (V3.dot v v)) := by
    rw [V3.dot, V3.dot]
    field_simp
  rw [hexp, hsq, div_self (ne_of_gt hpos)]

theorem cross_scaled (a v : V3) (n : ℝ) :
    V3.cross a ⟨v.x / n, v.y / n, v.z / n⟩ =
      ⟨(V3.cross a v).x / n, (V3.cross a v).y / n, (V3.cross a v).z / n⟩ := by
  obtain ⟨a1, a2, a3⟩ := a
  obtain ⟨v1, v2, v3⟩ := v
  simp only [V3.cross, V3.mk.injEq]
  refine ⟨by ring, by ring, by ring⟩

theorem scaled_ne_zero (w : V3) (n : ℝ) (hn : n ≠ 0) (hw : w ≠ ⟨0, 0, 0⟩) :
    (⟨w.x / n, w.y / n, w.z / n⟩ : V3) ≠ ⟨0, 0, 0⟩ := by
  obtain ⟨w1, w2, w3⟩ := w
  intro hc
  apply hw
  simp only [V3.mk.injEq] at hc ⊢
  obtain ⟨h1, h2, h3⟩ := hc
  exact ⟨(div_eq_zero_iff.mp h1).resolve_right hn,
         (div_eq_zero_iff.mp h2).resolve_right hn,
         (div_eq_zero_iff.mp h3).resolve_right hn⟩

theorem V3.sub_eq_zero_iff (a b : V3) : V3.sub a b = ⟨0, 0, 0⟩ ↔ a = b := by
  obtain ⟨a1, a2, a3⟩ := a
  obtain ⟨b1, b2, b3⟩ := b
  simp only [V3.sub, V3.mk.injEq, sub_eq_zero]

theorem dot_zero_self : V3.dot ⟨0, 0, 0⟩ ⟨0, 0, 0⟩ = 0 := by
  simp [V3.dot]

theorem fmatMul_rot_trans (r u d e : V3) :
    fmatMul (rotationTransform (V3.lift r) (V3.lift u) (V3.lift d))
      (translationTransform e) =
      liftMat (Matrix.of ![![r.x, r.y, r.z, -(V3.dot r e)],
        ![u.x, u.y, u.z, -(V3.dot u e)], ![d.x, d.y, d.z, -(V3.dot d e)],
        ![0, 0, 0, 1]]) := by
  ext i j
  fin_cases i <;> fin_cases j <;>
    · change FReal.val _ = FReal.val _
      refine congrArg FReal.val ?_
      simp [V3.dot] <;> ring

theorem npInv_lift (M : Matrix (Fin 4) (Fin 4) ℝ) :
    npInv (liftMat M) = liftMat M⁻¹ := by
  rw [npInv, if_pos]
  · have h : (Matrix.of fun i j => ((liftMat M) i j).toReal) = M := by
      ext i j
      rfl
    rw [h]
  · intro i j h
    exact FReal.noConfusion h

theorem rigid_inverse (r u d e : V3)
    (hrr : V3.dot r r = 1) (huu : V3.dot u u = 1) (hdd : V3.dot d d = 1)
    (hru : V3.dot r u = 0) (hrd : V3.dot r d = 0) (hud : V3.dot u d = 0) :
    (Matrix.of ![![r.x, r.y, r.z, -(V3.dot r e)],
                 ![u.x, u.y, u.z, -(V3.dot u e)],
                 ![d.x, d.y, d.z, -(V3.dot d e)],
                 ![0, 0, 0, 1]] : Matrix (Fin 4) (Fin 4) ℝ)⁻¹ =
      Matrix.of ![![r.x, u.x, d.x, e.x], ![r.y, u.y, d.y, e.y],
                  ![r.z, u.z, d.z, e.z], ![0, 0, 0, 1]] := by
  apply Matrix.inv_eq_right_inv
  rw [V3.dot] at hrr huu hdd hru hrd hud
  ext i j
  fin_cases i <;> fin_cases j <;>
    simp [Matrix.mul_apply, Fin.sum_univ_four, Matrix.one_apply, V3.dot] <;>
    linarith [hrr, huu, hdd, hru, hrd, hud]

theorem rows_orthonormal (r u d : V3)
    (hrr : V3.dot r r = 1) (huu : V3.dot u u = 1) (hdd : V3.dot d d = 1)
    (hru : V3.dot r u = 0) (hrd : V3.dot r d = 0) (hud : V3.dot u d = 0) :
    (Matrix.of ![![r.x, r.y, r.z], ![u.x, u.y, u.z], ![d.x, d.y, d.z]] :
        Matrix (Fin 3) (Fin 3) ℝ) *
      Matrix.of ![![r.x, u.x, d.x], ![r.y, u.y, d.y], ![r.z, u.z, d.z]] = 1 := by
  rw [V3.dot] at hrr huu hdd hru hrd hud
  ext i j
  fin_cases i <;> fin_cases j <;>
    simp [Matrix.mul_apply, Fin.sum_univ_three, Matrix.one_apply] <;>
    linarith [hrr, huu, hdd, hru, hrd, hud]

theorem transpose_cols_eq_rows (r u d : V3) :
    Matrix.transpose (Matrix.of ![![r.x, u.x, d.x], ![r.y, u.y, d.y],
        ![r.z, u.z, d.z]] : Matrix (Fin 3) (Fin 3) ℝ) =
      Matrix.of ![![r.x, r.y, r.z], ![u.x, u.y, u.z], ![d.x, d.y, d.z]] := by
  ext i j
  fin_cases i <;> fin_cases j <;> rfl

/-- C5: for every valid input — eye distinct from target and up not
parallel to the eye-to-target direction (nonzero cross product) — the
returned camera-to-world matrix is NaN-free: it is the lift of a real
matrix whose upper-left 3×3 block is orthonormal (the product with its
transpose is the identity on both sides, so rows and columns are unit
length and mutually perpendicular), whose bottom row is `[0,0,0,1]`, and
whose translation column equals the eye position. -/
theorem look_at_c2w_wellformed (cam target up : V3)
    (hd : cam ≠ target)
    (hup : V3.cross up (V3.sub cam target) ≠ ⟨0, 0, 0⟩) :
    ∃ M : Matrix (Fin 4) (Fin 4) ℝ,
      (∀ i j, look_at_to_c2w cam target up i j = FReal.val (M i j)) ∧
      upperLeft M * Matrix.transpose (upperLeft M) = 1 ∧
      Matrix.transpose (upperLeft M) * upperLeft M = 1 ∧
      M 3 0 = 0 ∧ M 3 1 = 0 ∧ M 3 2 = 0 ∧ M 3 3 = 1 ∧
      M 0 3 = cam.x ∧ M 1 3 = cam.y ∧ M 2 3 = cam.z := by
  have hsub : V3.sub cam target ≠ ⟨0, 0, 0⟩ :=
    fun hc => hd ((V3.sub_eq_zero_iff cam target).mp hc)
  set d0 := V3.sub cam target with hd0
  have hnd : Real.sqrt (V3.dot d0 d0) ≠ 0 :=
    ne_of_gt (Real.sqrt_pos.mpr (dot_self_pos d0 hsub))
  set n := Real.sqrt (V3.dot d0 d0) with hn0
  set f : V3 := ⟨d0.x / n, d0.y / n, d0.z / n⟩ with hfdef
  set r0 := V3.cross up f with hr0def
  have hcs : V3.cross up f =
      ⟨(V3.cross up d0).x / n, (V3.cross up d0).y / n, (V3.cross up d0).z / n⟩ := by
    rw [hfdef]
    exact cross_scaled up d0 n
  have hr0ne : r0 ≠ ⟨0, 0, 0⟩ := by
    rw [hr0def, hcs]
    exact scaled_ne_zero (V3.cross up d0) n hnd hup
  set m := Real.sqrt (V3.dot r0 r0) with hm0
  set rr : V3 := ⟨r0.x / m, r0.y / m, r0.z / m⟩ with hrrdef
  set u0 := V3.cross f rr with hu0def
  have hfn : fnormalize (V3.lift d0) = V3.lift f := by
    rw [hfdef, hn0]
    exact fnormalize_lift d0 hsub
  have hff : V3.dot f f = 1 := by
    rw [hfdef, hn0]
    exact dot_normalized_self d0 hsub
  have hrrall : V3.dot rr rr = 1 := by
    rw [hrrdef, hm0]
    exact dot_normalized_self r0 hr0ne
  have hrn : fnormalize (FV3.crossF (V3.lift up) (V3.lift f)) = V3.lift rr := by
    rw [crossF_lift, ← hr0def, hrrdef, hm0]
    exact fnormalize_lift r0 hr0ne
  have hfr0 : V3.dot f r0 = 0 := by
    rw [hr0def, V3.dot_comm]
    exact dot_cross_right up f
  have hfrr : V3.dot f rr = 0 := by
    rw [hrrdef, dot_scaled_right, hfr0, zero_div]
  have hu0u0 : V3.dot u0 u0 = 1 := by
    rw [hu0def, lagrange_cross, hff, hrrall, hfrr]
    norm_num
  have hu0ne : u0 ≠ ⟨0, 0, 0⟩ := by
    intro hc
    rw [hc, dot_zero_self] at hu0u0
    exact absurd hu0u0 (by norm_num)
  have hun : fnormalize (FV3.crossF (V3.lift f) (V3.lift rr)) = V3.lift u0 := by
    rw [crossF_lift, ← hu0def, fnormalize_lift u0 hu0ne, hu0u0]
    simp [Real.sqrt_one]
  have hru_ : V3.dot rr u0 = 0 := by
    rw [hu0def, V3.dot_comm]
    exact dot_cross_right f rr
  have hrd_ : V3.dot rr f = 0 := by
    rw [V3.dot_comm]
    exact hfrr
  have hud_ : V3.dot u0 f = 0 := by
    rw [hu0def]
    exact dot_cross_left f rr
  have hstep1 : look_at_to_c2w cam target up =
      npInv (fmatMul (rotationTransform (V3.lift rr) (V3.lift u0) (V3.lift f))
        (translationTransform cam)) := by
    simp only [look_at_to_c2w]
    rw [← hd0, hfn, hrn, hun]
  have hLC := fmatMul_rot_trans rr u0 f cam
  have hLrInv := rigid_inverse rr u0 f cam hrrall hu0u0 hff hru_ hrd_ hud_
  have horth := rows_orthonormal rr u0 f hrrall hu0u0 hff hru_ hrd_ hud_
  refine ⟨Matrix.of ![![rr.x, u0.x, f.x, cam.x], ![rr.y, u0.y, f.y, cam.y],
    ![rr.z, u0.z, f.z, cam.z], ![0, 0, 0, 1]], ?_, ?_, ?_, ?_, ?_, ?_, ?_, rfl, rfl, rfl⟩
  · intro i j
    rw [hstep1, hLC, npInv_lift, hLrInv]
    rfl
  · have hUL : upperLeft (Matrix.of ![![rr.x, u0.x, f.x, cam.x],
        ![rr.y, u0.y, f.y, cam.y], ![rr.z, u0.z, f.z, cam.z], ![0, 0, 0, 1]]) =
        Matrix.of ![![rr.x, u0.x, f.x], ![rr.y, u0.y, f.y], ![rr.z, u0.z, f.z]] := by
      ext i j
      fin_cases i <;> fin_cases j <;> rfl
    rw [hUL, transpose_cols_eq_rows]
    exact Matrix.mul_eq_one_comm.mp horth
  · have hUL : upperLeft (Matrix.of ![![rr.x, u0.x, f.x, cam.x],
        ![rr.y, u0.y, f.y, cam.y], ![rr.z, u0.z, f.z, cam.z], ![0, 0, 0, 1]]) =
        Matrix.of ![![rr.x, u0.x, f.x], ![rr.y, u0.y, f.y], ![rr.z, u0.z, f.z]] := by
      ext i j
      fin_cases i <;> fin_cases j <;> rfl
    rw [hUL, transpose_cols_eq_rows]
    exact horth
  · rfl
  · rfl
  · rfl
  · rfl

/-- C5 witness: `eye=(0,0,5)`, `target=(0,0,0)`, `up=(0,1,0)` is a valid
input; the returned matrix is finite with orthonormal rotation block,
bottom row `[0,0,0,1]` and translation column `(0,0,5)`. -/
theorem look_at_c2w_wellformed_witness :
    ((⟨0, 0, 5⟩ : V3) ≠ ⟨0, 0, 0⟩) ∧
    (V3.cross ⟨0, 1, 0⟩ (V3.sub ⟨0, 0, 5⟩ ⟨0, 0, 0⟩) ≠ ⟨0, 0, 0⟩) ∧
    (∃ M : Matrix (Fin 4) (Fin 4) ℝ,
      (∀ i j, look_at_to_c2w ⟨0, 0, 5⟩ ⟨0, 0, 0⟩ ⟨0, 1, 0⟩ i j = FReal.val (M i j)) ∧
      upperLeft M * Matrix.transpose (upperLeft M) = 1 ∧
      Matrix.transpose (upperLeft M) * upperLeft M = 1 ∧
      M 3 0 = 0 ∧ M 3 1 = 0 ∧ M 3 2 = 0 ∧ M 3 3 = 1 ∧
      M 0 3 = 0 ∧ M 1 3 = 0 ∧ M 2 3 = 5) := by
  have h1 : (⟨0, 0, 5⟩ : V3) ≠ ⟨0, 0, 0⟩ := by
    intro hc
    have h5 := congrArg V3.z hc
    norm_num at h5
  have h2 : V3.cross ⟨0, 1, 0⟩ (V3.sub ⟨0, 0, 5⟩ ⟨0, 0, 0⟩) ≠ ⟨0, 0, 0⟩ := by
    intro hc
    have h5 := congrArg V3.x hc
    rw [V3.cross, V3.sub] at h5
    norm_num at h5
  exact ⟨h1, h2, look_at_c2w_wellformed ⟨0, 0, 5⟩ ⟨0, 0, 0⟩ ⟨0, 1, 0⟩ h1 h2⟩
